import Mathlib

/-!
Shallow embedding of the Gerchberg-Saxton phaseless-retrieval notebook
(`Gerchberg-Saxton.ipynb`).

The notebook works with real `numpy` arrays.  We model 1-D arrays as lists of
real numbers and 2-D arrays as lists of rows, and idealise IEEE floating-point
arithmetic by exact real arithmetic.  The two external numerical primitives —
the pseudo-random source `np.random.default_rng(seed).random(...)` and the
factorisation `np.linalg.qr` — are not part of the repository; they are passed
as explicit function parameters (`Sampler`, `QRfun`), which also makes the
"deterministic given a seed" contract of the random source explicit.

The complex channel of the loop body, `b * np.exp(1j*np.angle(X))` for a real
array `X`, is carried here as the real factor `phase X` (`1` for nonnegative
entries, `-1` for negative ones); the lemma `mul_exp_arg_mul_I` proves that for
a real argument the complex expression literally equals the real one, so the
trailing `np.real` of the loop body is the identity and is dropped.
-/

namespace GS

/-- Real vectors: 1-D numpy arrays modelled as lists of reals. -/
abbrev Vec := List ℝ

/-- Real matrices: 2-D numpy arrays modelled as lists of rows. -/
abbrev Mat := List (List ℝ)

/-- Elementwise negation, `-v`. -/
def vneg (v : Vec) : Vec := v.map (fun t => -t)

/-- Elementwise sum, `u + v` (for arrays of equal shape). -/
def vadd (u v : Vec) : Vec := List.zipWith (fun a b => a + b) u v

/-- Elementwise difference, `u - v` (for arrays of equal shape). -/
def vsub (u v : Vec) : Vec := List.zipWith (fun a b => a - b) u v

/-- Elementwise absolute value, `np.abs(v)` on a real array. -/
def vabs (v : Vec) : Vec := v.map (fun t => |t|)

/-- Dot product of two vectors of equal length. -/
def dot (u v : Vec) : ℝ := (List.zipWith (fun a b => a * b) u v).sum

/-- Euclidean norm `np.linalg.norm(v)`: square root of the sum of squares. -/
noncomputable def npNorm (v : Vec) : ℝ := Real.sqrt (dot v v)

/-- Matrix-vector product `A.dot(z)` / `A @ z`: row-wise dot products. -/
def matVec (A : Mat) (z : Vec) : Vec := A.map (fun r => dot r z)

/-- Column `j` of a matrix (entry `0` past the end of a row, which never
happens for the rectangular arrays numpy produces). -/
def col (A : Mat) (j : ℕ) : Vec := A.map (fun r => r.getD j 0)

/-- Transpose `A.T` of a rectangular list-of-rows matrix: the list of its
columns, the column count read off the first row as numpy reads `A.shape[1]`. -/
def matTranspose (A : Mat) : Mat :=
  (List.range (A.headD []).length).map (fun j => col A j)

/-- Matrix product `A @ B`: rows of `A` against columns of `B`. -/
def matMul (A B : Mat) : Mat :=
  A.map (fun r => (matTranspose B).map (fun c => dot r c))

/-- The identity matrix `np.eye n`. -/
def idMat (n : ℕ) : Mat :=
  (List.range n).map (fun i => (List.range n).map (fun j => if i = j then (1 : ℝ) else 0))

/-- Shape predicate: `A` has `m` rows, each of length `n`. -/
def isMatrixOfShape (A : Mat) (m n : ℕ) : Prop :=
  A.length = m ∧ ∀ r ∈ A, r.length = n

instance (A : Mat) (m n : ℕ) : Decidable (isMatrixOfShape A m n) :=
  inferInstanceAs (Decidable (A.length = m ∧ ∀ r ∈ A, r.length = n))

/-- The first `k` columns of `A` are orthonormal. -/
def hasOrthonormalCols (A : Mat) (k : ℕ) : Prop :=
  ∀ i j, i < k → j < k → dot (col A i) (col A j) = (if i = j then (1 : ℝ) else 0)

/-- The value of `np.exp(1j*np.angle(t))` for a real `t`: the sign factor `1`
for `t ≥ 0` (including `t = 0`, whose angle is `0`) and `-1` for `t < 0`.
Lemma `mul_exp_arg_mul_I` below checks this against the complex library. -/
noncomputable def phase (t : ℝ) : ℝ := if t < 0 then -1 else 1

/-- Model of the external random source: a `Sampler` maps a seed and a count
to the draws of `np.random.default_rng(seed).random(count)`.  It is a pure
function of the seed, which is exactly the documented determinism of
`default_rng`. -/
abbrev Sampler := ℕ → ℕ → List ℝ

/-- Model of the external factorisation `np.linalg.qr`: a function from a
matrix to the pair `(Q, R)`.  Its contract (orthogonal `Q` of the same square
shape) appears as a hypothesis wherever a claim needs it. -/
abbrev QRfun := Mat → Mat × Mat

/-- Embedding of `randunif(n, a, b, seed)`:
`(b-a) * rng.random(n) + a` for `rng = default_rng(seed)`. -/
def randunif (sampler : Sampler) (n : ℕ) (a b : ℝ) (seed : ℕ) : Vec :=
  (sampler seed n).map (fun u => (b - a) * u + a)

/-- Embedding of `rng.random((m, m))`: the `m*m` draws of the sampler laid out
row-major as an `m × m` matrix. -/
def rngMatrix (sampler : Sampler) (seed m : ℕ) : Mat :=
  (List.range m).map (fun i => ((sampler seed (m * m)).drop (i * m)).take m)

/-- Python `int(q)` on an exact rational: truncation toward zero, the ceiling
for negative arguments and the floor otherwise. -/
def pyInt (q : ℚ) : ℤ := if q < 0 then ⌈q⌉ else ⌊q⌋

/-- Embedding of `random_frame(input_dimension, redundancy, frame_dimension,
seed)`: when no explicit frame dimension is supplied the row count is
`int(input_dimension * redundancy)`; an `m × m` random matrix is drawn, `Q` is
taken from its QR factorisation, and the first `n` columns `Q[:, :n]` (here:
`take n` of every row) are returned.  No dimension check of any kind. -/
def random_frame (sampler : Sampler) (qr : QRfun) (input_dimension : ℕ)
    (redundancy : ℚ) (frame_dimension : Option ℕ) (seed : ℕ) : Mat :=
  let n := input_dimension
  let m : ℕ := match frame_dimension with
    | none => (pyInt ((input_dimension : ℚ) * redundancy)).toNat
    | some fd => fd
  let rand_mat := rngMatrix sampler seed m
  let Q := (qr rand_mat).1
  Q.map (fun r => r.take n)

/-- The residual `err` closed over by `gs_phaseless`:
`np.linalg.norm(np.abs(F.dot(z)) - magnitude)`. -/
noncomputable def err (magnitude : Vec) (F : Mat) (z : Vec) : ℝ :=
  npNorm (vsub (vabs (matVec F z)) magnitude)

/-- The frame-domain constraint `Y0 = b * np.exp(1j*np.angle(X0))`, written
with the real sign factor `phase` (see `mul_exp_arg_mul_I`). -/
noncomputable def gsY (b X : Vec) : Vec :=
  List.zipWith (fun bk Xk => bk * phase Xk) b X

/-- The back-projected candidate of one loop pass:
`y0 = F.T @ (b * np.exp(1j*np.angle(F @ x0)))`. -/
noncomputable def gsCandidate (b : Vec) (F : Mat) (x : Vec) : Vec :=
  matVec (matTranspose F) (gsY b (matVec F x))

/-- One pass of the `for` loop of `gs_phaseless`:
`x0 = y0 if err(y0) < err(-y0) else -y0`, followed by `x0 = np.real(x0)`
(the identity here, the candidate being real). -/
noncomputable def gsStep (b : Vec) (F : Mat) (x : Vec) : Vec :=
  if err b F (gsCandidate b F x) < err b F (vneg (gsCandidate b F x)) then
    gsCandidate b F x
  else vneg (gsCandidate b F x)

/-- Embedding of `gs_phaseless(magnitude, frame, num_iter, seed)`: read the
signal dimension off `F.shape[1]`, draw the random initial guess
`randunif(n, -1, 1, seed)`, and run the loop body `num_iter` times. -/
noncomputable def gs_phaseless (sampler : Sampler) (magnitude : Vec) (frame : Mat)
    (num_iter : ℕ) (seed : ℕ) : Vec :=
  let b := magnitude
  let F := frame
  let n := (F.headD []).length
  let x0 := randunif sampler n (-1) 1 seed
  (List.range num_iter).foldl (fun x _ => gsStep b F x) x0

/-- Embedding of the sign-fixing tail of the main routine (the Result
Evaluator): `err_pos = norm(x - x0)`, `err_neg = norm(x + x0)`,
`x0 = -x0 if err_neg < err_pos else x0`, `err = min(err_pos, err_neg)`. -/
noncomputable def evaluate (x x0 : Vec) : Vec × ℝ :=
  (if npNorm (vadd x x0) < npNorm (vsub x x0) then vneg x0 else x0,
    min (npNorm (vsub x x0)) (npNorm (vadd x x0)))

/-- Concrete sampler used to instantiate the external random source in closed
statements: every draw is `0`. -/
def sampler0 : Sampler := fun _ k => List.replicate k 0

/-- Concrete stand-in for the external QR routine in closed statements where
only shapes matter: it returns the input matrix as both factors. -/
def qr0 : QRfun := fun A => (A, A)

/-- For a real argument, the complex phase factor `exp(1j*np.angle(t))` of the
source is exactly the real sign factor `phase t`. -/
theorem exp_arg_mul_I_eq_phase (t : ℝ) :
    Complex.exp ((Complex.arg (t : ℂ)) * Complex.I) = ((phase t : ℝ) : ℂ) := by
  rcases lt_trichotomy t 0 with h | h | h
  · rw [Complex.arg_ofReal_of_neg h, Complex.exp_pi_mul_I]
    simp [phase, h]
  · subst h
    simp [phase]
  · rw [Complex.arg_ofReal_of_nonneg h.le]
    simp [phase, not_lt.2 h.le]

theorem dot_nil_left (v : Vec) : dot [] v = 0 := by
  simp [dot]

theorem dot_nil_right (u : Vec) : dot u [] = 0 := by
  simp [dot]

theorem dot_cons (a : ℝ) (u : Vec) (b : ℝ) (v : Vec) :
    dot (a :: u) (b :: v) = a * b + dot u v := by
  simp [dot]

theorem vneg_cons (a : ℝ) (v : Vec) : vneg (a :: v) = -a :: vneg v := by
  simp [vneg]

theorem dot_vneg_right (u : Vec) : ∀ v : Vec, dot u (vneg v) = -dot u v := by
  induction u with
  | nil => intro v; simp [dot]
  | cons a u ih =>
    intro v
    cases v with
    | nil => simp [dot, vneg]
    | cons b v => rw [vneg_cons, dot_cons, dot_cons, ih]; ring

theorem matVec_vneg (F : Mat) (z : Vec) : matVec F (vneg z) = vneg (matVec F z) := by
  unfold matVec vneg
  rw [List.map_map]
  refine List.map_congr_left (fun r _ => ?_)
  simp only [Function.comp]
  simpa [vneg] using dot_vneg_right r z

theorem vabs_vneg (v : Vec) : vabs (vneg v) = vabs v := by
  simp [vabs, vneg, List.map_map]

theorem err_vneg (b : Vec) (F : Mat) (z : Vec) : err b F (vneg z) = err b F z := by
  unfold err
  rw [matVec_vneg, vabs_vneg]

/-- The frame-domain constraint of the source,
`b_k * exp(1j*np.angle(X_k))` with `X_k` real, is the real number
`b_k * phase X_k`: the embedding of the loop body by `gsY` is faithful and the
trailing `np.real` is the identity. -/
theorem mul_exp_arg_mul_I (bk Xk : ℝ) :
    (bk : ℂ) * Complex.exp ((Complex.arg (Xk : ℂ)) * Complex.I)
      = ((bk * phase Xk : ℝ) : ℂ) := by
  rw [exp_arg_mul_I_eq_phase]
  push_cast
  ring

/-- The simplified loop body named by the refinement claim: the next iterate
is always the negated back-projection,
`x(i+1) = Re(-F.T @ (b * exp(1j*np.angle(F @ x(i)))))`. -/
noncomputable def gsStepSimple (b : Vec) (F : Mat) (x : Vec) : Vec :=
  vneg (gsCandidate b F x)

/-- The retrieval engine with its loop body replaced by `gsStepSimple`; the
refinement claim compares `gs_phaseless` against this definition. -/
noncomputable def gs_phaselessSimple (sampler : Sampler) (magnitude : Vec) (frame : Mat)
    (num_iter : ℕ) (seed : ℕ) : Vec :=
  let b := magnitude
  let F := frame
  let n := (F.headD []).length
  let x0 := randunif sampler n (-1) 1 seed
  (List.range num_iter).foldl (fun x _ => gsStepSimple b F x) x0

theorem foldl_const_range (f : Vec → Vec) (k : ℕ) (x : Vec) :
    (List.range k).foldl (fun a _ => f a) x = f^[k] x := by
  induction k with
  | zero => simp
  | succ k ih =>
    rw [List.range_succ, List.foldl_append, ih, Function.iterate_succ_apply']
    rfl

/-- C5: for every matrix `F` and vector `z`, the elementwise magnitude of
`F z` equals the elementwise magnitude of `F (-z)`. -/
theorem magnitude_invariant_under_negation (F : Mat) (z : Vec) :
    vabs (matVec F (vneg z)) = vabs (matVec F z) := by
  rw [matVec_vneg, vabs_vneg]

/-- C6: in every pass the two candidate residuals are exactly equal, so the
comparison of the source always takes its `else` branch and the loop body
returns the negated candidate; consequently `gs_phaseless` is extensionally
the simplified loop `x(i+1) = Re(-F.T @ (b * exp(1j*np.angle(F @ x(i)))))`. -/
theorem gs_always_selects_negated_candidate :
    (∀ (b : Vec) (F : Mat) (x : Vec),
        err b F (gsCandidate b F x) = err b F (vneg (gsCandidate b F x)) ∧
          gsStep b F x = vneg (gsCandidate b F x)) ∧
      ∀ (sampler : Sampler) (b : Vec) (F : Mat) (k s : ℕ),
        gs_phaseless sampler b F k s = gs_phaselessSimple sampler b F k s := by
  have hstep : ∀ (b : Vec) (F : Mat) (x : Vec),
      gsStep b F x = vneg (gsCandidate b F x) := by
    intro b F x
    unfold gsStep
    rw [err_vneg]
    simp
  refine ⟨fun b F x => ⟨(err_vneg b F (gsCandidate b F x)).symm, hstep b F x⟩, ?_⟩
  intro sampler b F k s
  unfold gs_phaseless gs_phaselessSimple gsStepSimple
  simp only [hstep]

/-- C8: `gs_phaseless` terminates and runs its loop body exactly `num_iter`
times with no early stopping — it returns the `num_iter`-fold iterate of the
step applied to the random initial guess, and for `num_iter = 0` the random
initial guess itself. -/
theorem gs_phaseless_iteration_count (sampler : Sampler) (b : Vec) (F : Mat) (k s : ℕ) :
    gs_phaseless sampler b F k s
        = (gsStep b F)^[k] (randunif sampler (F.headD []).length (-1) 1 s) ∧
      gs_phaseless sampler b F 0 s = randunif sampler (F.headD []).length (-1) 1 s := by
  constructor
  · unfold gs_phaseless
    exact foldl_const_range (gsStep b F) k _
  · unfold gs_phaseless
    simp

/-- C2 counterexample: at `b = [1]`, `F = [[1]]`, `x = [1]` the two candidate
residuals tie exactly, and the loop body selects the negated candidate
`[-1]`, not the positive candidate `[1]` the claim names. -/
theorem gsStep_tie_selects_negation_cex :
    gsStep [(1 : ℝ)] [[(1 : ℝ)]] [(1 : ℝ)] = [(-1 : ℝ)] ∧
      err [(1 : ℝ)] [[(1 : ℝ)]] [(1 : ℝ)] = err [(1 : ℝ)] [[(1 : ℝ)]] [(-1 : ℝ)] ∧
      ([(-1 : ℝ)] : Vec) ≠ [(1 : ℝ)] := by
  have hneg : vneg [(1 : ℝ)] = [(-1 : ℝ)] := by simp [vneg]
  have hcand : gsCandidate [(1 : ℝ)] [[(1 : ℝ)]] [(1 : ℝ)] = [(1 : ℝ)] := by
    simp [gsCandidate, gsY, matVec, matTranspose, col, dot, phase, List.range_succ,
      Function.comp]
  have h1 : err [(1 : ℝ)] [[(1 : ℝ)]] [(1 : ℝ)] = err [(1 : ℝ)] [[(1 : ℝ)]] [(-1 : ℝ)] := by
    rw [← hneg, err_vneg]
  constructor
  · unfold gsStep
    rw [hcand, hneg, h1]
    simp
  · exact ⟨h1, by norm_num⟩

/-- C2 amended: the loop body selects the positive candidate `y0` exactly
when its residual is strictly smaller, and on an exact tie of the two
residuals it selects the negated candidate `-y0`. -/
theorem gsStep_residual_selection (b : Vec) (F : Mat) (x : Vec) :
    (err b F (gsCandidate b F x) < err b F (vneg (gsCandidate b F x)) →
        gsStep b F x = gsCandidate b F x) ∧
      (err b F (gsCandidate b F x) = err b F (vneg (gsCandidate b F x)) →
        gsStep b F x = vneg (gsCandidate b F x)) := by
  constructor
  · intro h
    unfold gsStep
    simp [h]
  · intro h
    unfold gsStep
    rw [h]
    simp

/-- Witness for the amended C2 statement at `b = [1]`, `F = [[1]]`,
`x = [1]`, where the exact-tie hypothesis holds. -/
theorem gsStep_residual_selection_witness :
    gsStep [(1 : ℝ)] [[(1 : ℝ)]] [(1 : ℝ)] = vneg (gsCandidate [(1 : ℝ)] [[(1 : ℝ)]] [(1 : ℝ)]) :=
  (gsStep_residual_selection [(1 : ℝ)] [[(1 : ℝ)]] [(1 : ℝ)]).2
    (err_vneg [(1 : ℝ)] [[(1 : ℝ)]] (gsCandidate [(1 : ℝ)] [[(1 : ℝ)]] [(1 : ℝ)])).symm

theorem vsub_vneg (x y : Vec) : vsub x (vneg y) = vadd x y := by
  unfold vsub vadd vneg
  rw [List.zipWith_map_right]
  simp [sub_neg_eq_add]

theorem vadd_vneg (x y : Vec) : vadd x (vneg y) = vsub x y := by
  unfold vsub vadd vneg
  rw [List.zipWith_map_right]
  simp [← sub_eq_add_neg]

theorem vneg_vneg (v : Vec) : vneg (vneg v) = v := by
  simp [vneg, List.map_map]

/-- C1 counterexample: neither entry point validates its preconditions.  With
`len(b) = 3` against a `2 × 1` frame and `num_iter = 0`, `gs_phaseless`
returns the random initial guess (no invalid-input signal, a result is
produced); with explicit frame dimension `1` smaller than the input dimension
`2`, `random_frame` returns the `1 × 1` slice `Q[:, :2]` instead of failing. -/
theorem no_precondition_check_cex :
    gs_phaseless sampler0 [(1 : ℝ), 2, 3] [[(1 : ℝ)], [(2 : ℝ)]] 0 0 = [(-1 : ℝ)] ∧
      random_frame sampler0 qr0 2 2 (some 1) 0 = [[(0 : ℝ)]] := by
  constructor
  · unfold gs_phaseless randunif sampler0
    norm_num
  · unfold random_frame rngMatrix sampler0 qr0
    norm_num [List.range_succ]

/-- C1 amended: no shape validation happens at the boundary of either entry
point.  With `num_iter = 0` the engine returns the same value for every
magnitude vector, however mismatched, and `random_frame` with an explicit
frame dimension always returns the column slice of `Q`, with as many rows as
`Q` has, whether or not `m ≥ n`. -/
theorem no_precondition_check (sampler : Sampler) (qr : QRfun)
    (b bb : Vec) (F : Mat) (s n m : ℕ) (r : ℚ) (seed : ℕ) :
    gs_phaseless sampler b F 0 s = gs_phaseless sampler bb F 0 s ∧
      (random_frame sampler qr n r (some m) seed).length
        = ((qr (rngMatrix sampler seed m)).1).length := by
  constructor
  · unfold gs_phaseless
    simp
  · unfold random_frame
    simp

/-- C3 counterexample: at `n = 2`, `r = 1.9` the source computes
`m = int(3.8) = 3` rows, while `round(3.8) = 4`. -/
theorem frame_dimension_truncates_cex :
    (random_frame sampler0 qr0 2 (19/10 : ℚ) none 0).length = 3 ∧
      (3 : ℤ) ≠ round ((2 : ℚ) * (19/10)) := by
  constructor
  · unfold random_frame rngMatrix sampler0 qr0
    norm_num [pyInt, Int.toNat_ofNat]
    decide
  · norm_num [round_eq]

/-- C3 amended: with no explicit frame dimension, `random_frame` uses
`m = int(n * r)` — truncation toward zero of the product, not rounding — and,
provided the QR factor of the sampled matrix is `m × m` and `m ≥ n`, returns
a matrix of shape `m × n`. -/
theorem random_frame_truncated_shape (sampler : Sampler) (qr : QRfun) (n : ℕ)
    (r : ℚ) (seed : ℕ)
    (hq : isMatrixOfShape ((qr (rngMatrix sampler seed ((pyInt ((n : ℚ) * r)).toNat))).1)
        ((pyInt ((n : ℚ) * r)).toNat) ((pyInt ((n : ℚ) * r)).toNat))
    (hnm : n ≤ (pyInt ((n : ℚ) * r)).toNat) :
    isMatrixOfShape (random_frame sampler qr n r none seed)
      ((pyInt ((n : ℚ) * r)).toNat) n := by
  obtain ⟨hlen, hrow⟩ := hq
  unfold random_frame
  constructor
  · simpa using hlen
  · intro rr hrr
    simp only [List.mem_map] at hrr
    obtain ⟨r0, hr0, rfl⟩ := hrr
    rw [List.length_take, hrow r0 hr0]
    omega

/-- Witness for the amended C3 statement at `n = 2`, `r = 1.9`, where
`m = int(3.8) = 3 ≥ 2` and the concrete QR stand-in returns the sampled
`3 × 3` matrix itself. -/
theorem random_frame_truncated_shape_witness :
    isMatrixOfShape (random_frame sampler0 qr0 2 (19/10 : ℚ) none 0)
      ((pyInt (((2 : ℕ) : ℚ) * (19/10 : ℚ))).toNat) 2 := by
  have e : (pyInt (((2 : ℕ) : ℚ) * (19/10 : ℚ))).toNat = 3 := by
    norm_num [pyInt, Int.toNat_ofNat]
    decide
  refine random_frame_truncated_shape sampler0 qr0 2 (19/10) 0 ?_ ?_
  · rw [e]
    decide
  · rw [e]
    norm_num

/-- C7 counterexample: at ground truth `x = [1, 0]` and estimate
`x0 = [0, 1]`, the two residuals tie exactly; evaluating `(x, x0)` keeps
`[0, 1]` while evaluating `(x, -x0)` keeps `[0, -1]`, so the corrected
estimates differ. -/
theorem evaluate_tie_not_sign_invariant_cex :
    (evaluate [(1 : ℝ), 0] [(0 : ℝ), 1]).1 = [(0 : ℝ), 1] ∧
      (evaluate [(1 : ℝ), 0] (vneg [(0 : ℝ), 1])).1 = [(0 : ℝ), -1] ∧
      ([(0 : ℝ), 1] : Vec) ≠ [(0 : ℝ), -1] := by
  refine ⟨?_, ?_, by norm_num⟩
  · simp [evaluate, npNorm, vsub, vadd, vneg, dot]
  · simp [evaluate, npNorm, vsub, vadd, vneg, dot]

/-- C7 amended: the reported error of the Result Evaluator is invariant under
negating the estimate, and so is the corrected estimate whenever the two
residuals differ; on an exact tie the corrected estimates of `(x, x0)` and
`(x, -x0)` are `x0` and `-x0` respectively. -/
theorem evaluate_sign_invariance (x y : Vec) :
    (evaluate x y).2 = (evaluate x (vneg y)).2 ∧
      (npNorm (vsub x y) ≠ npNorm (vadd x y) → evaluate x y = evaluate x (vneg y)) := by
  unfold evaluate
  rw [vsub_vneg, vadd_vneg, vneg_vneg]
  constructor
  · simp [min_comm]
  · intro h
    rcases lt_or_gt_of_ne h with hlt | hgt
    · rw [if_neg (by exact not_lt.2 hlt.le), if_pos hlt]
      simp [min_comm]
    · rw [if_pos hgt, if_neg (by exact not_lt.2 hgt.le)]
      simp [min_comm]

/-- Witness for the amended C7 statement at `x = [1]`, `x0 = [2]`, where the
two residuals are `1` and `3`. -/
theorem evaluate_sign_invariance_witness :
    evaluate [(1 : ℝ)] [(2 : ℝ)] = evaluate [(1 : ℝ)] (vneg [(2 : ℝ)]) := by
  refine (evaluate_sign_invariance [(1 : ℝ)] [(2 : ℝ)]).2 ?_
  have h1 : npNorm (vsub [(1 : ℝ)] [(2 : ℝ)]) = 1 := by
    simp [npNorm, vsub, dot]
    norm_num
  have h2 : npNorm (vadd [(1 : ℝ)] [(2 : ℝ)]) = 3 := by
    simp only [npNorm, vadd, dot, List.zipWith_cons_cons, List.zipWith_nil_right,
      List.sum_cons, List.sum_nil]
    rw [show ((1 : ℝ) + 2) * (1 + 2) + 0 = 3 ^ 2 by norm_num]
    exact Real.sqrt_sq (by norm_num)
  rw [h1, h2]
  norm_num

/-- C10: with the external random source and QR routine modelled as pure
functions of the seed and argument (the documented `default_rng` contract),
two calls to `randunif`, `random_frame`, or `gs_phaseless` with the same seed
and the same remaining arguments — even made against two observations of the
external primitives that agree pointwise — return identical output. -/
theorem seeded_determinism (s1 s2 : Sampler) (q1 q2 : QRfun)
    (hs : ∀ seed k, s1 seed k = s2 seed k) (hq : ∀ A, q1 A = q2 A) :
    (∀ (n : ℕ) (a b : ℝ) (seed : ℕ), randunif s1 n a b seed = randunif s2 n a b seed) ∧
      (∀ (n : ℕ) (r : ℚ) (fd : Option ℕ) (seed : ℕ),
        random_frame s1 q1 n r fd seed = random_frame s2 q2 n r fd seed) ∧
      ∀ (b : Vec) (F : Mat) (k seed : ℕ),
        gs_phaseless s1 b F k seed = gs_phaseless s2 b F k seed := by
  refine ⟨?_, ?_, ?_⟩
  · intro n a b seed
    unfold randunif
    rw [hs]
  · intro n r fd seed
    unfold random_frame rngMatrix
    simp only [hs, hq]
  · intro b F k seed
    unfold gs_phaseless randunif
    simp only [hs]

/-- Witness for C10: the determinism statement applied to a concrete sampler,
QR routine, and arguments. -/
theorem seeded_determinism_witness :
    gs_phaseless sampler0 [(1 : ℝ)] [[(1 : ℝ)]] 2 0
      = gs_phaseless sampler0 [(1 : ℝ)] [[(1 : ℝ)]] 2 0 :=
  (seeded_determinism sampler0 sampler0 qr0 qr0 (fun _ _ => rfl) (fun _ => rfl)).2.2
    [(1 : ℝ)] [[(1 : ℝ)]] 2 0

/-- Entry `k` of a vector, `0` past the end. -/
def vent (v : Vec) (k : ℕ) : ℝ := v.getD k 0

/-- Entry `(i, j)` of a matrix, `0` past the end. -/
def ent (A : Mat) (i j : ℕ) : ℝ := (A.getD i []).getD j 0

theorem vent_nil (k : ℕ) : vent [] k = 0 := by
  simp [vent]

theorem vent_cons_zero (a : ℝ) (v : Vec) : vent (a :: v) 0 = a := rfl

theorem vent_cons_succ (a : ℝ) (v : Vec) (k : ℕ) : vent (a :: v) (k + 1) = vent v k := rfl

theorem vent_zipWith (f : ℝ → ℝ → ℝ) (hf : f 0 0 = 0) (u : Vec) :
    ∀ (v : Vec), u.length = v.length → ∀ k, vent (List.zipWith f u v) k = f (vent u k) (vent v k) := by
  induction u with
  | nil =>
    intro v hv k
    have : v = [] := by cases v <;> simp_all
    subst this
    simp [vent, hf]
  | cons a u ih =>
    intro v hv k
    cases v with
    | nil => simp at hv
    | cons b w =>
      cases k with
      | zero => simp [vent]
      | succ k => simpa [vent_cons_succ] using ih w (by simpa using hv) k

theorem vent_map (f : ℝ → ℝ) (hf : f 0 = 0) (v : Vec) : ∀ k, vent (v.map f) k = f (vent v k) := by
  induction v with
  | nil => intro k; simp [vent, hf]
  | cons a w ih =>
    intro k
    cases k with
    | zero => simp [vent]
    | succ k => simpa [vent_cons_succ] using ih k

theorem vent_vsub (u v : Vec) (h : u.length = v.length) (k : ℕ) :
    vent (vsub u v) k = vent u k - vent v k :=
  vent_zipWith (fun a b => a - b) (by ring) u v h k

theorem vent_vadd (u v : Vec) (h : u.length = v.length) (k : ℕ) :
    vent (vadd u v) k = vent u k + vent v k :=
  vent_zipWith (fun a b => a + b) (by ring) u v h k

theorem vent_vneg (v : Vec) (k : ℕ) : vent (vneg v) k = -vent v k :=
  vent_map (fun t => -t) (by ring) v k

theorem vent_vabs (v : Vec) (k : ℕ) : vent (vabs v) k = |vent v k| :=
  vent_map (fun t => |t|) abs_zero v k

theorem dot_eq_sum (u : Vec) : ∀ (v : Vec), u.length = v.length →
    dot u v = ∑ k ∈ Finset.range u.length, vent u k * vent v k := by
  induction u with
  | nil =>
    intro v hv
    simp [dot]
  | cons a u ih =>
    intro v hv
    cases v with
    | nil => simp at hv
    | cons b w =>
      rw [dot_cons, List.length_cons, Finset.sum_range_succ']
      simp only [vent_cons_succ, vent_cons_zero]
      rw [ih w (by simpa using hv)]
      ring

theorem vent_matVec (A : Mat) (z : Vec) : ∀ i, i < A.length →
    vent (matVec A z) i = dot (A.getD i []) z := by
  induction A with
  | nil => intro i hi; simp at hi
  | cons r A2 ih =>
    intro i hi
    cases i with
    | zero => simp [vent, matVec]
    | succ i =>
      have : vent (matVec (r :: A2) z) (i + 1) = vent (matVec A2 z) i := rfl
      rw [this, ih i (by simpa using hi)]
      rfl

theorem matVec_length (A : Mat) (z : Vec) : (matVec A z).length = A.length := by
  simp [matVec]

theorem col_length (A : Mat) (j : ℕ) : (col A j).length = A.length := by
  simp [col]

theorem vent_col (A : Mat) (j : ℕ) : ∀ i, i < A.length → vent (col A j) i = ent A i j := by
  induction A with
  | nil => intro i hi; simp at hi
  | cons r A2 ih =>
    intro i hi
    cases i with
    | zero => simp [vent, col, ent]
    | succ i =>
      have h1 : vent (col (r :: A2) j) (i + 1) = vent (col A2 j) i := rfl
      have h2 : ent (r :: A2) (i + 1) j = ent A2 i j := rfl
      rw [h1, h2, ih i (by simpa using hi)]

theorem dot_col_eq_sum (A : Mat) (m : ℕ) (hA : A.length = m) (j : ℕ) (w : Vec)
    (hw : w.length = m) :
    dot (col A j) w = ∑ k ∈ Finset.range m, ent A k j * vent w k := by
  rw [dot_eq_sum _ _ (by rw [col_length, hA, hw]), col_length, hA]
  refine Finset.sum_congr rfl (fun k hk => ?_)
  rw [vent_col A j k (by rw [hA]; exact Finset.mem_range.mp hk)]

theorem dot_row_eq_sum (A : Mat) (i : ℕ) (z : Vec) (n : ℕ)
    (hrow : (A.getD i []).length = n) (hz : z.length = n) :
    dot (A.getD i []) z = ∑ j ∈ Finset.range n, ent A i j * vent z j := by
  rw [dot_eq_sum _ _ (by rw [hrow, hz]), hrow]
  rfl

theorem row_length (A : Mat) (m n : ℕ) (hA : isMatrixOfShape A m n) (i : ℕ) (hi : i < m) :
    (A.getD i []).length = n := by
  have hmem : A.getD i [] ∈ A := by
    rw [List.getD_eq_getElem _ _ (by rw [hA.1]; exact hi)]
    exact List.getElem_mem _
  exact hA.2 _ hmem

theorem getD_take (l : Vec) : ∀ (n i : ℕ), i < n → (l.take n).getD i 0 = l.getD i 0 := by
  induction l with
  | nil => intro n i hi; simp
  | cons a l ih =>
    intro n i hi
    cases n with
    | zero => omega
    | succ n =>
      cases i with
      | zero => simp
      | succ i => simpa using ih n i (by omega)

theorem col_map_take (Q : Mat) (n j : ℕ) (h : j < n) :
    col (Q.map (fun row => row.take n)) j = col Q j := by
  unfold col
  rw [List.map_map]
  refine List.map_congr_left (fun row _ => ?_)
  simp only [Function.comp]
  exact getD_take row n j h

theorem matTranspose_length (A : Mat) : (matTranspose A).length = (A.headD []).length := by
  simp [matTranspose]

theorem matTranspose_getD (A : Mat) (j : ℕ) (h : j < (A.headD []).length) :
    (matTranspose A).getD j [] = col A j := by
  unfold matTranspose
  rw [List.getD_eq_getElem _ _ (by simpa using h)]
  simp

/-- The mathematical core of the frame generator's orthonormality: slicing the
first `n` columns out of a matrix `Q` of shape `m × m` with orthonormal
columns and multiplying the slice by its own transpose yields the `n × n`
identity, exactly, in real arithmetic. -/
theorem sliced_gram_identity (Q : Mat) (m n : ℕ) (hq : isMatrixOfShape Q m m)
    (horth : hasOrthonormalCols Q m) (hnm : n ≤ m) :
    matMul (matTranspose (Q.map (fun row => row.take n))) (Q.map (fun row => row.take n))
      = idMat n := by
  rcases Nat.eq_zero_or_pos n with hn0 | hnpos
  · subst hn0
    have hh : ((Q.map (fun row => row.take 0)).headD []).length = 0 := by
      cases Q with
      | nil => simp
      | cons q Q2 => simp
    unfold matMul matTranspose
    rw [hh]
    simp [idMat]
  · have hhead : ((Q.map (fun row => row.take n)).headD []).length = n := by
      cases Q with
      | nil =>
        exfalso
        have hl := hq.1
        simp at hl
        omega
      | cons q Q2 =>
        have hqlen : q.length = m := hq.2 q (by simp)
        simp [hqlen]
        omega
    have hT : matTranspose (Q.map (fun row => row.take n))
        = (List.range n).map (fun j => col (Q.map (fun row => row.take n)) j) := by
      unfold matTranspose
      rw [hhead]
    unfold matMul
    rw [hT]
    simp only [List.map_map]
    unfold idMat
    refine List.map_congr_left (fun i hi => ?_)
    rw [List.mem_range] at hi
    simp only [Function.comp]
    refine List.map_congr_left (fun j hj => ?_)
    rw [List.mem_range] at hj
    simp only [Function.comp]
    rw [col_map_take Q n i hi, col_map_take Q n j hj]
    exact horth i j (lt_of_lt_of_le hi hnm) (lt_of_lt_of_le hj hnm)

/-- C4: whenever the external QR routine returns an orthogonal factor `Q` of
shape `m × m` (its documented contract) with `m = int(n*r) ≥ n`, the frame
`F = Q[:, :n]` returned by `random_frame` has exactly orthonormal columns:
`F.T @ F` is the `n × n` identity in real arithmetic. -/
theorem random_frame_orthonormal_columns (sampler : Sampler) (qr : QRfun) (n : ℕ)
    (r : ℚ) (seed : ℕ)
    (hq : isMatrixOfShape ((qr (rngMatrix sampler seed ((pyInt ((n : ℚ) * r)).toNat))).1)
        ((pyInt ((n : ℚ) * r)).toNat) ((pyInt ((n : ℚ) * r)).toNat))
    (horth : hasOrthonormalCols ((qr (rngMatrix sampler seed ((pyInt ((n : ℚ) * r)).toNat))).1)
        ((pyInt ((n : ℚ) * r)).toNat))
    (hnm : n ≤ (pyInt ((n : ℚ) * r)).toNat) :
    matMul (matTranspose (random_frame sampler qr n r none seed))
      (random_frame sampler qr n r none seed) = idMat n :=
  sliced_gram_identity ((qr (rngMatrix sampler seed ((pyInt ((n : ℚ) * r)).toNat))).1)
    ((pyInt ((n : ℚ) * r)).toNat) n hq horth hnm

/-- Concrete stand-in for the external QR routine whose orthogonal factor is
the `2 × 2` identity. -/
def qrId2 : QRfun := fun A => (idMat 2, A)

/-- Witness for C4 at `n = 1`, `r = 2`, so `m = int(2) = 2`, with the QR
stand-in returning the (orthogonal) `2 × 2` identity. -/
theorem random_frame_orthonormal_columns_witness :
    matMul (matTranspose (random_frame sampler0 qrId2 1 2 none 0))
      (random_frame sampler0 qrId2 1 2 none 0) = idMat 1 := by
  have e : (pyInt (((1 : ℕ) : ℚ) * (2 : ℚ))).toNat = 2 := by
    norm_num [pyInt, Int.toNat_ofNat]
    decide
  refine random_frame_orthonormal_columns sampler0 qrId2 1 2 0 ?_ ?_ ?_
  · show isMatrixOfShape (idMat 2) ((pyInt (((1 : ℕ) : ℚ) * (2 : ℚ))).toNat)
      ((pyInt (((1 : ℕ) : ℚ) * (2 : ℚ))).toNat)
    rw [e]
    decide
  · show hasOrthonormalCols (idMat 2) ((pyInt (((1 : ℕ) : ℚ) * (2 : ℚ))).toNat)
    rw [e]
    intro i j hi hj
    interval_cases i <;> interval_cases j <;>
      simp [col, dot, idMat, List.range_succ]
  · rw [e]
    norm_num

theorem vent_mem (v : Vec) (k : ℕ) (h : k < v.length) : vent v k ∈ v := by
  unfold vent
  rw [List.getD_eq_getElem _ _ h]
  exact List.getElem_mem _

theorem abs_phase (t : ℝ) : |phase t| = 1 := by
  unfold phase
  split <;> simp

theorem sq_abs_sub_abs_le (a d : ℝ) : (|a| - |d|) ^ 2 ≤ (a - d) ^ 2 := by
  have h1 : a * d ≤ |a| * |d| := by
    rw [← abs_mul]
    exact le_abs_self _
  nlinarith [sq_abs a, sq_abs d]

theorem sq_sub_phase (t c : ℝ) : (t - c * phase t) ^ 2 = (|t| - c) ^ 2 := by
  unfold phase
  rcases lt_or_le t 0 with h | h
  · rw [if_pos h, abs_of_neg h]
    ring
  · rw [if_neg (not_lt.2 h), abs_of_nonneg h]
    ring

theorem headD_length_eq (F : Mat) (m n : ℕ) (hF : isMatrixOfShape F m n)
    (horth : hasOrthonormalCols F n) : (F.headD []).length = n := by
  cases F with
  | nil =>
    rcases Nat.eq_zero_or_pos n with h0 | hp
    · simp [h0]
    · exfalso
      have h1 := horth 0 0 hp hp
      simp [col, dot] at h1
  | cons r0 F2 => exact hF.2 r0 (by simp)

theorem gsY_length (b X : Vec) : (gsY b X).length = min b.length X.length := by
  simp [gsY]

theorem gsCandidate_length (b : Vec) (F : Mat) (x : Vec) :
    (gsCandidate b F x).length = (F.headD []).length := by
  simp [gsCandidate, matVec_length, matTranspose_length]

theorem gsStep_length (b : Vec) (F : Mat) (x : Vec) :
    (gsStep b F x).length = (F.headD []).length := by
  unfold gsStep
  split
  · exact gsCandidate_length b F x
  · rw [show (vneg (gsCandidate b F x)).length = (gsCandidate b F x).length from by simp [vneg]]
    exact gsCandidate_length b F x

theorem err_eq_sqrt_sum (b : Vec) (F : Mat) (z : Vec) (m : ℕ)
    (hFlen : F.length = m) (hb : b.length = m) :
    err b F z
      = Real.sqrt (∑ k ∈ Finset.range m, (|vent (matVec F z) k| - vent b k) ^ 2) := by
  unfold err npNorm
  have hva : (vabs (matVec F z)).length = m := by simp [vabs, matVec, hFlen]
  have hw : (vsub (vabs (matVec F z)) b).length = m := by simp [vsub, vabs, matVec, hFlen, hb]
  rw [dot_eq_sum _ _ rfl, hw]
  congr 1
  refine Finset.sum_congr rfl (fun k hk => ?_)
  rw [vent_vsub _ _ (by rw [hva, hb]) k, vent_vabs]
  ring

/-- One pass of the loop cannot increase the magnitude-fit residual: the
back-projected candidate is the orthogonal projection of the
magnitude-constrained vector onto the column span of `F`, and the sign
selection keeps a candidate of the same (tied) residual. -/
theorem gsStep_residual_le (b : Vec) (F : Mat) (m n : ℕ) (x : Vec)
    (hF : isMatrixOfShape F m n) (hb : b.length = m) (hbnn : ∀ t ∈ b, 0 ≤ t)
    (horth : hasOrthonormalCols F n) (hx : x.length = n) :
    err b F (gsStep b F x) ≤ err b F x := by
  have hhead : (F.headD []).length = n := headD_length_eq F m n hF horth
  have hXlen : (matVec F x).length = m := by rw [matVec_length, hF.1]
  have hYlen : (gsY b (matVec F x)).length = m := by
    rw [gsY_length, hb, hXlen]
    simp
  have hcandlen : (gsCandidate b F x).length = n := by rw [gsCandidate_length, hhead]
  set X := matVec F x with hXdef
  set Y := gsY b X with hYdef
  set c := gsCandidate b F x with hcdef
  set P := matVec F c with hPdef
  have hPlen : P.length = m := by rw [hPdef, matVec_length, hF.1]
  have hYent : ∀ k, vent Y k = vent b k * phase (vent X k) := by
    intro k
    rw [hYdef]
    unfold gsY
    exact vent_zipWith (fun bk Xk => bk * phase Xk) (by simp [phase]) b X (by rw [hb, hXlen]) k
  have hbk : ∀ k, k < m → 0 ≤ vent b k := by
    intro k hk
    exact hbnn _ (vent_mem b k (by rw [hb]; exact hk))
  have habsY : ∀ k, k < m → |vent Y k| = vent b k := by
    intro k hk
    rw [hYent k, abs_mul, abs_phase, mul_one, abs_of_nonneg (hbk k hk)]
  have hfx : ∀ (z : Vec), z.length = n → ∀ k, k < m →
      vent (matVec F z) k = ∑ j ∈ Finset.range n, ent F k j * vent z j := by
    intro z hz k hk
    rw [vent_matVec F z k (by rw [hF.1]; exact hk)]
    exact dot_row_eq_sum F k z n (row_length F m n hF k hk) hz
  have hcent : ∀ j, j < n → vent c j = ∑ k ∈ Finset.range m, ent F k j * vent Y k := by
    intro j hj
    rw [hcdef]
    unfold gsCandidate
    rw [← hXdef, ← hYdef]
    rw [vent_matVec _ Y j (by rw [matTranspose_length, hhead]; exact hj)]
    rw [matTranspose_getD F j (by rw [hhead]; exact hj)]
    exact dot_col_eq_sum F m hF.1 j Y hYlen
  have hgram : ∀ i j, i < n → j < n →
      ∑ k ∈ Finset.range m, ent F k i * ent F k j = if i = j then (1 : ℝ) else 0 := by
    intro i j hi hj
    rw [← horth i j hi hj]
    rw [dot_col_eq_sum F m hF.1 i (col F j) (by rw [col_length, hF.1])]
    exact Finset.sum_congr rfl (fun k hk => by
      rw [vent_col F j k (by rw [hF.1]; exact Finset.mem_range.mp hk)])
  have hPent : ∀ j, j < n → ∑ k ∈ Finset.range m, ent F k j * vent P k = vent c j := by
    intro j hj
    calc ∑ k ∈ Finset.range m, ent F k j * vent P k
        = ∑ k ∈ Finset.range m, ∑ l ∈ Finset.range n,
            ent F k j * (ent F k l * vent c l) := by
          refine Finset.sum_congr rfl (fun k hk => ?_)
          rw [hPdef, hfx c hcandlen k (Finset.mem_range.mp hk), Finset.mul_sum]
      _ = ∑ l ∈ Finset.range n, ∑ k ∈ Finset.range m,
            ent F k j * (ent F k l * vent c l) := Finset.sum_comm
      _ = ∑ l ∈ Finset.range n,
            (∑ k ∈ Finset.range m, ent F k j * ent F k l) * vent c l := by
          refine Finset.sum_congr rfl (fun l hl => ?_)
          rw [Finset.sum_mul]
          exact Finset.sum_congr rfl (fun k hk => by ring)
      _ = ∑ l ∈ Finset.range n, (if j = l then (1 : ℝ) else 0) * vent c l := by
          refine Finset.sum_congr rfl (fun l hl => ?_)
          rw [hgram j l hj (Finset.mem_range.mp hl)]
      _ = vent c j := by
          simp only [ite_mul, one_mul, zero_mul]
          rw [Finset.sum_ite_eq, if_pos (Finset.mem_range.mpr hj)]
  have hdiff : ∀ k, k < m → vent X k - vent P k
      = ∑ j ∈ Finset.range n, ent F k j * (vent x j - vent c j) := by
    intro k hk
    rw [hXdef, hPdef, hfx x hx k hk, hfx c hcandlen k hk, ← Finset.sum_sub_distrib]
    exact Finset.sum_congr rfl (fun j hj => by ring)
  have hcross : ∑ k ∈ Finset.range m, (vent X k - vent P k) * (vent P k - vent Y k) = 0 := by
    calc ∑ k ∈ Finset.range m, (vent X k - vent P k) * (vent P k - vent Y k)
        = ∑ k ∈ Finset.range m, ∑ j ∈ Finset.range n,
            (vent x j - vent c j) * (ent F k j * (vent P k - vent Y k)) := by
          refine Finset.sum_congr rfl (fun k hk => ?_)
          rw [hdiff k (Finset.mem_range.mp hk), Finset.sum_mul]
          exact Finset.sum_congr rfl (fun j hj => by ring)
      _ = ∑ j ∈ Finset.range n, (vent x j - vent c j) *
            ∑ k ∈ Finset.range m, ent F k j * (vent P k - vent Y k) := by
          rw [Finset.sum_comm]
          exact Finset.sum_congr rfl (fun j hj => by rw [Finset.mul_sum])
      _ = ∑ j ∈ Finset.range n, (vent x j - vent c j) * 0 := by
          refine Finset.sum_congr rfl (fun j hj => ?_)
          congr 1
          have hj2 := Finset.mem_range.mp hj
          calc ∑ k ∈ Finset.range m, ent F k j * (vent P k - vent Y k)
              = (∑ k ∈ Finset.range m, ent F k j * vent P k)
                  - ∑ k ∈ Finset.range m, ent F k j * vent Y k := by
                rw [← Finset.sum_sub_distrib]
                exact Finset.sum_congr rfl (fun k hk => by ring)
            _ = vent c j - vent c j := by rw [hPent j hj2, ← hcent j hj2]
            _ = 0 := sub_self _
      _ = 0 := by simp
  have hexpand : ∑ k ∈ Finset.range m, (vent X k - vent Y k) ^ 2
      = (∑ k ∈ Finset.range m, (vent X k - vent P k) ^ 2)
        + 2 * (∑ k ∈ Finset.range m, (vent X k - vent P k) * (vent P k - vent Y k))
        + ∑ k ∈ Finset.range m, (vent P k - vent Y k) ^ 2 := by
    rw [Finset.mul_sum, ← Finset.sum_add_distrib, ← Finset.sum_add_distrib]
    exact Finset.sum_congr rfl (fun k hk => by ring)
  have hB : ∑ k ∈ Finset.range m, (vent P k - vent Y k) ^ 2
      ≤ ∑ k ∈ Finset.range m, (vent X k - vent Y k) ^ 2 := by
    rw [hexpand, hcross]
    have h0 : 0 ≤ ∑ k ∈ Finset.range m, (vent X k - vent P k) ^ 2 :=
      Finset.sum_nonneg (fun k _ => sq_nonneg _)
    linarith
  have hA : ∑ k ∈ Finset.range m, (|vent P k| - vent b k) ^ 2
      ≤ ∑ k ∈ Finset.range m, (vent P k - vent Y k) ^ 2 := by
    refine Finset.sum_le_sum (fun k hk => ?_)
    rw [← habsY k (Finset.mem_range.mp hk)]
    exact sq_abs_sub_abs_le _ _
  have hC : ∑ k ∈ Finset.range m, (vent X k - vent Y k) ^ 2
      = ∑ k ∈ Finset.range m, (|vent X k| - vent b k) ^ 2 := by
    refine Finset.sum_congr rfl (fun k hk => ?_)
    rw [hYent k, sq_sub_phase]
  have hcandle : err b F c ≤ err b F x := by
    rw [err_eq_sqrt_sum b F c m hF.1 hb, err_eq_sqrt_sum b F x m hF.1 hb]
    apply Real.sqrt_le_sqrt
    rw [← hPdef, ← hXdef]
    calc ∑ k ∈ Finset.range m, (|vent P k| - vent b k) ^ 2
        ≤ ∑ k ∈ Finset.range m, (vent P k - vent Y k) ^ 2 := hA
      _ ≤ ∑ k ∈ Finset.range m, (vent X k - vent Y k) ^ 2 := hB
      _ = ∑ k ∈ Finset.range m, (|vent X k| - vent b k) ^ 2 := hC
  unfold gsStep
  split
  · rw [← hcdef]
    exact hcandle
  · rw [← hcdef, err_vneg]
    exact hcandle

/-- C9: with `F` of shape `m × n` with orthonormal columns and
`b = |F xt|` for some real vector `xt`, the magnitude-fit residual of the
chosen iterate is non-increasing along the trajectory of the loop, whatever
length-`n` initial guess the run started from. -/
theorem gs_residual_monotone (b : Vec) (F : Mat) (m n : ℕ) (xt x0 : Vec) (i : ℕ)
    (hF : isMatrixOfShape F m n) (hb : b = vabs (matVec F xt))
    (horth : hasOrthonormalCols F n) (hx0 : x0.length = n) :
    err b F ((gsStep b F)^[i + 1] x0) ≤ err b F ((gsStep b F)^[i] x0) := by
  have hblen : b.length = m := by rw [hb]; simp [vabs, matVec_length, hF.1]
  have hbnn : ∀ t ∈ b, 0 ≤ t := by
    intro t ht
    rw [hb] at ht
    simp only [vabs, List.mem_map] at ht
    obtain ⟨s, _, rfl⟩ := ht
    exact abs_nonneg s
  have hlen : ∀ k, ((gsStep b F)^[k] x0).length = n := by
    intro k
    induction k with
    | zero => simpa using hx0
    | succ k ih =>
      rw [Function.iterate_succ_apply', gsStep_length,
        headD_length_eq F m n hF horth]
  rw [Function.iterate_succ_apply']
  exact gsStep_residual_le b F m n _ hF hblen hbnn horth (hlen i)

/-- Witness for C9 at `b = [1] = |F [1]|`, `F = [[1]]`, initial guess
`[1/2]`, first iteration. -/
theorem gs_residual_monotone_witness :
    err [(1 : ℝ)] [[(1 : ℝ)]] ((gsStep [(1 : ℝ)] [[(1 : ℝ)]])^[0 + 1] [(1/2 : ℝ)])
      ≤ err [(1 : ℝ)] [[(1 : ℝ)]] ((gsStep [(1 : ℝ)] [[(1 : ℝ)]])^[0] [(1/2 : ℝ)]) := by
  refine gs_residual_monotone [(1 : ℝ)] [[(1 : ℝ)]] 1 1 [(1 : ℝ)] [(1/2 : ℝ)] 0
    ?_ ?_ ?_ ?_
  · exact ⟨by simp, by intro r hr; simp at hr; simp [hr]⟩
  · simp [vabs, matVec, dot]
  · intro i j hi hj
    interval_cases i
    interval_cases j
    simp [col, dot]
  · simp

end GS
